import Mathlib

/-!
Shallow embedding of `src/internal/write_log.rs` from the swym STM runtime.

Modelling conventions:
* `usize` is 64 bits; all word values live in `Nat` (no operation here can
  overflow: the log's filter word only ever takes `|||`, `&&&` and shifts by
  less than 64 bits of values below `2^64`).
* A `TCellErased` is identified by its address, a `Nat`; `NonNull` pointers
  are nonzero, and `Option<NonNull<TCellErased>>` uses the null niche, so the
  record's first word `destWord` encodes `None` as `0` and `Some p` as the
  address `p`.
* The pending value of a `WriteEntryImpl<T>` is stored usize-aligned
  (`ForcedUsizeAligned<T>`); we keep its word-level representation as a
  `List Nat` of words.  `mem::size_of_val` of the erased record is one header
  word plus the pending words, times 8 bytes.
* `TCellErased` holds an `EpochLock` (an atomic usize), so
  `mem::align_of::<TCellErased>() = 8` and `calc_shift() = 1+1+1+0+1 = 4`.
* Stats calls (`stats::bloom_check` etc.) are side-effect free counters and are
  omitted.  `debug_assert!` is modelled by checked variants returning `Option`.
-/

namespace WriteLogModel

/-- Number of bits in a machine word (`usize`), 64 on the targeted platform. -/
def usizeBits : Nat := 64

/-- Model of `calc_shift()`: with `mem::align_of::<TCellErased>() = 8` this is
`(8>1) + (8>2) + (8>4) + (8>8) + 1 = 4`. -/
def calcShift : Nat := 1 + 1 + 1 + 0 + 1

/-- Model of `bloom_hash(value)`: take the cell's address, shift right by `SHIFT`,
keep the low 6 bits (`& (size_of::<NonZeroUsize>() * 8 - 1) = & 63`) and
set the corresponding bit of a one-word mask. -/
def bloomHash (addr : Nat) : Nat :=
  1 <<< ((addr >>> calcShift) &&& (8 * 8 - 1))

/-- One type-erased write record (`WriteEntryImpl<T>` seen as
`dyn WriteEntry`): first word is the `Option<NonNull<TCellErased>>` (0 means
`None`), the remaining words are the usize-aligned pending value. -/
structure WriteEntryMem where
  destWord : Nat
  pending  : List Nat
  deriving Repr, DecidableEq

instance : Inhabited WriteEntryMem := ⟨⟨0, []⟩⟩

/-- Model of `tcell()`: read the record's first word as `Option<NonNull<TCellErased>>`. -/
def WriteEntryMem.tcell (e : WriteEntryMem) : Option Nat :=
  if e.destWord = 0 then none else some e.destWord

/-- Value of `mem::size_of_val(self)` for the erased record, in bytes: one header word
plus the usize-aligned pending payload. -/
def WriteEntryMem.sizeOfVal (e : WriteEntryMem) : Nat :=
  8 * (1 + e.pending.length)

/-- Model of `is_dest_tcell(v)`: pointer equality of the target against `v`,
false when deactivated. -/
def WriteEntryMem.isDestTcell (e : WriteEntryMem) (addr : Nat) : Bool :=
  match e.tcell with
  | some p => p = addr
  | none => false

/-- Value of `mem::size_of::<UsizeAligned<T>>() / mem::size_of::<usize>()`:
byte size of `T` rounded up to whole words. -/
def usizeAlignedWords (tSizeBytes : Nat) : Nat :=
  (tSizeBytes + 7) / 8

/-- Model of `WriteEntry::read::<T>()`, with its two assertions made explicit.
`none` models an assertion failure: the `debug_assert!` that
`size_of_val(self) == size_of::<UsizeAligned<T>>() + size_of::<usize>()`, and
the `assert!(size_of::<T>() > 0)`.  On success it copies the
`UsizeAligned<T>` words out of the pending payload. -/
def WriteEntryMem.read (e : WriteEntryMem) (tSizeBytes : Nat) : Option (List Nat) :=
  if e.sizeOfVal ≠ 8 * usizeAlignedWords tSizeBytes + 8 then
    none
  else if tSizeBytes = 0 then
    none
  else
    some (e.pending.take (usizeAlignedWords tSizeBytes))

/-- Result type `Contained`: result of the bloom-filter membership test. -/
inductive Contained
  | No
  | Maybe
  deriving Repr, DecidableEq

/-- The write log: one bloom-filter word plus the append-only record
container (`DynVec<dyn WriteEntry>` modelled as a list of records). -/
structure WriteLog where
  filter : Nat
  data   : List WriteEntryMem
  deriving Repr, DecidableEq

namespace WriteLog

/-- Model of `WriteLog::new()`. -/
def new : WriteLog := { filter := 0, data := [] }

/-- Model of `WriteLog::contained(hash)`: `Maybe` iff `filter & hash != 0`. -/
def contained (log : WriteLog) (hash : Nat) : Contained :=
  if log.filter &&& hash ≠ 0 then Contained.Maybe else Contained.No

/-- Model of `WriteLog::clear()`: zero the filter and clear the container. -/
def clear (log : WriteLog) : WriteLog :=
  { log with filter := 0, data := [] }

/-- Model of `WriteLog::clear_no_drop()`: identical state change to `clear`, skipping
destructors. -/
def clearNoDrop (log : WriteLog) : WriteLog :=
  { log with filter := 0, data := [] }

/-- Model of `WriteLog::is_empty()`: decided entirely by the filter word (the code
`assume!`s the container agrees). -/
def isEmpty (log : WriteLog) : Bool :=
  log.filter = 0

/-- Model of `WriteLog::find_slow(dest_tcell)`: linear scan for the first record
targeting the cell. -/
def findSlow (log : WriteLog) (addr : Nat) : Option WriteEntryMem :=
  log.data.find? (fun e => e.isDestTcell addr)

/-- Model of `WriteLog::find(dest_tcell)`: filter fast path, then the linear scan. -/
def find (log : WriteLog) (addr : Nat) : Option WriteEntryMem :=
  let hash := bloomHash addr
  if log.contained hash = Contained.No then none
  else log.findSlow addr

/-- Result of `WriteLog::entry` (the `Entry<'a>` enum, with the borrow
replaced by the found record's value). -/
inductive EntryRes
  | Vacant (hash : Nat)
  | Occupied (e : WriteEntryMem) (hash : Nat)
  deriving Repr, DecidableEq

/-- Model of `WriteLog::entry_slow(dest_tcell, hash)`: scan; found means `Occupied`,
otherwise `Vacant` carrying the hash. -/
def entrySlow (log : WriteLog) (addr : Nat) (hash : Nat) : EntryRes :=
  match log.data.find? (fun e => e.isDestTcell addr) with
  | some e => EntryRes.Occupied e hash
  | none => EntryRes.Vacant hash

/-- Model of `WriteLog::entry(dest_tcell)`: filter fast path to `Vacant`, slow path via
`entry_slow`. -/
def entry (log : WriteLog) (addr : Nat) : EntryRes :=
  let hash := bloomHash addr
  if log.contained hash = Contained.No then EntryRes.Vacant hash
  else log.entrySlow addr hash

/-- Model of `WriteLog::push(dest_tcell, val, hash)` without the duplicate-entry
`debug_assert!`: or the hash into the filter and append the new record. -/
def push (log : WriteLog) (addr : Nat) (pending : List Nat) (hash : Nat) :
    WriteLog :=
  { filter := log.filter ||| hash
    data := log.data ++ [⟨addr, pending⟩] }

/-- Model of `WriteLog::push` including its `debug_assert!` that no record for the cell
is already present; `none` models the assertion firing. -/
def pushChecked (log : WriteLog) (addr : Nat) (pending : List Nat)
    (hash : Nat) : Option WriteLog :=
  if log.data.find? (fun e => e.isDestTcell addr) ≠ none then none
  else some (log.push addr pending hash)

end WriteLog

/-! Per-record state semantics.  The `EpochLock` sitting inside a
`TCellErased` is an external collaborator whose code is not part of this
module, so the lock-word operations are kept abstract: a record method either
forwards to the cell operation at the target address or, when the record is
deactivated, leaves the state untouched — exactly the `match` in the source.
The value store written by `perform_write` is modelled concretely as a map
from cell address to the word list currently stored there. -/

/-- Model of `WriteEntry::try_lock(pin_epoch)` as a state transformer:
forwards to the cell lock's `try_lock` (abstract `tryOp`, already specialised
to the pin epoch and orderings) at the target, and returns `true` leaving the
state untouched when deactivated. -/
def WriteEntryMem.tryLockSt {σ : Type} (tryOp : Nat → σ → Bool × σ)
    (e : WriteEntryMem) (s : σ) : Bool × σ :=
  match e.tcell with
  | some p => tryOp p s
  | none => (true, s)

/-- Model of `WriteEntry::unlock()` as a state transformer: forwards to the
cell lock's `unlock(Release)` (abstract `unlockOp`) at the target; no-op when
deactivated. -/
def WriteEntryMem.unlockSt {σ : Type} (unlockOp : Nat → σ → σ)
    (e : WriteEntryMem) (s : σ) : σ :=
  match e.tcell with
  | some p => unlockOp p s
  | none => s

/-- Model of `WriteEntry::publish(publish_epoch)` as a state transformer:
forwards to the cell lock's `unlock_as_epoch(publish_epoch, Release)`
(abstract `pubOp`) at the target; no-op when deactivated. -/
def WriteEntryMem.publishSt {σ : Type} (pubOp : Nat → Nat → σ → σ)
    (e : WriteEntryMem) (epoch : Nat) (s : σ) : σ :=
  match e.tcell with
  | some p => pubOp p epoch s
  | none => s

/-- Word count copied by `perform_write`:
`len = size_of_val(self) / size_of::<usize>() - 1`. -/
def WriteEntryMem.performWriteLen (e : WriteEntryMem) : Nat :=
  e.sizeOfVal / 8 - 1

/-- Source slice of `perform_write`: the first `performWriteLen` words of the
pending payload (`slice::from_raw_parts(self.pending(), len)`). -/
def WriteEntryMem.writtenWords (e : WriteEntryMem) : List Nat :=
  e.pending.take e.performWriteLen

/-- Model of `WriteEntry::perform_write()` over the cells' value stores:
`store_release` replaces the target cell's stored words by the source slice;
no-op when deactivated. -/
def WriteEntryMem.performWrite (e : WriteEntryMem) (mem : Nat → List Nat) :
    Nat → List Nat :=
  match e.tcell with
  | some p => fun a => if a = p then e.writtenWords else mem a
  | none => mem

/-! Commit-protocol locking.  `try_lock_entries` walks the container in
insertion order; the outcome of each (active) `EpochLock::try_lock` attempt is
environment-dependent, so it is an oracle `ok` indexed by the record's
position.  Beside the boolean result we record the trace of `WriteEntry`
method calls the loop makes, to state which records had `try_lock` / `unlock`
invoked on them. -/

/-- A `WriteEntry` method call made by the locking loop on the record at the
given container position. -/
inductive LockEvent
  | tryLock (i : Nat)
  | unlock (i : Nat)
  deriving Repr, DecidableEq

/-- Boolean outcome of `WriteEntry::try_lock` for the record at position `i`:
an active record consults the oracle; a deactivated record succeeds
unconditionally. -/
def entryTryLockB (ok : Nat → Bool) (e : WriteEntryMem) (i : Nat) : Bool :=
  match e.tcell with
  | some _ => ok i
  | none => true

namespace WriteLog

/-- Outcome of the `try_lock` attempt on the record at position `i` of the
log (true when the position is out of range — the loop never reads there). -/
def entryTryLockAt (ok : Nat → Bool) (log : WriteLog) (i : Nat) : Bool :=
  entryTryLockB ok (log.data.getD i default) i

/-- Model of `WriteLog::unlock_entries_until(entry)`: iterate the container,
calling `unlock` on each record, stopping (`take_while` on pointer
inequality) at the failing record — container elements have distinct
addresses, so pointer equality is position equality `i = k`. -/
def unlockEntriesUntil (log : WriteLog) (k : Nat) : List LockEvent :=
  ((List.range log.data.length).takeWhile (fun i => i ≠ k)).map LockEvent.unlock

/-- Loop body of `try_lock_entries`, walking the remaining records `es` whose
first element sits at container position `i`: on a failed `try_lock` it runs
`unlock_entries_until` on the whole log and returns `false`. -/
def tryLockGo (ok : Nat → Bool) (log : WriteLog) :
    List WriteEntryMem → Nat → Bool × List LockEvent
  | [], _ => (true, [])
  | e :: rest, i =>
    if entryTryLockB ok e i then
      let r := tryLockGo ok log rest (i + 1)
      (r.1, LockEvent.tryLock i :: r.2)
    else
      (false, [LockEvent.tryLock i] ++ log.unlockEntriesUntil i)

/-- Model of `WriteLog::try_lock_entries(pin_epoch)` (without its
`debug_assert!`): result plus the trace of record method calls. -/
def tryLockEntries (ok : Nat → Bool) (log : WriteLog) :
    Bool × List LockEvent :=
  tryLockGo ok log log.data 0

/-- Model of `WriteLog::try_lock_entries` including its
`debug_assert!(!self.is_empty())`; `none` models the assertion firing. -/
def tryLockEntriesChecked (ok : Nat → Bool) (log : WriteLog) :
    Option (Bool × List LockEvent) :=
  if log.isEmpty then none else some (log.tryLockEntries ok)

/-- True exactly for the `Occupied` alternative of an entry lookup result. -/
def EntryRes.isOccupied : EntryRes → Bool
  | EntryRes.Occupied _ _ => true
  | EntryRes.Vacant _ => false

/-- In-place overwrite of the pending value through an `Occupied` entry
handle (the write-after-write coalescing path): the record keeps its offset
and target, only its pending payload changes. -/
def overwritePending (log : WriteLog) (addr : Nat) (v : List Nat) : WriteLog :=
  { log with
    data := log.data.map
      (fun e => if e.isDestTcell addr then { e with pending := v } else e) }

end WriteLog

/-! State-mutating operations of the log, for reachability statements. -/

/-- One call mutating (or, for `entry`, merely inspecting) the write log. -/
inductive Op
  | push (addr : Nat) (pending : List Nat) (hash : Nat)
  | pushUnchecked (addr : Nat) (pending : List Nat) (hash : Nat)
  | entryProbe (addr : Nat)
  | clear
  | clearNoDrop
  deriving Repr, DecidableEq

/-- Effect of one operation on the log state.  `entry` by itself does not
mutate the log (insertion through a `Vacant` handle is a separate `push`),
and `push_unchecked` differs from `push` only in container capacity checks. -/
def applyOp (log : WriteLog) : Op → WriteLog
  | Op.push a v h => log.push a v h
  | Op.pushUnchecked a v h => log.push a v h
  | Op.entryProbe _ => log
  | Op.clear => log.clear
  | Op.clearNoDrop => log.clearNoDrop

/-- Effect of a sequence of operations, first operation first. -/
def applyOps (log : WriteLog) (ops : List Op) : WriteLog :=
  ops.foldl applyOp log

/-- Well-formedness of one operation: a pushed hash is a `NonZeroUsize`. -/
def Op.wfb : Op → Bool
  | Op.push _ _ h => h ≠ 0
  | Op.pushUnchecked _ _ h => h ≠ 0
  | _ => true

/-- True for the operations that do not reset the log. -/
def Op.noClear : Op → Bool
  | Op.clear => false
  | Op.clearNoDrop => false
  | _ => true

/-- Filter soundness invariant: every active record's bloom-hash bit is set
in the filter word. -/
def Sound (log : WriteLog) : Prop :=
  ∀ e ∈ log.data, ∀ p, e.tcell = some p → log.filter &&& bloomHash p ≠ 0

/-- States reachable by the entry protocol: starting from `new`, a record is
pushed only after `entry` on its cell returned `Vacant` (with the hash that
handle carries), pending values may be overwritten in place through an
`Occupied` handle, and the log may be cleared. -/
inductive PReach : WriteLog → Prop
  | base : PReach WriteLog.new
  | pushVacant {log : WriteLog} {addr : Nat} {v : List Nat} {hash : Nat} :
      PReach log → addr ≠ 0 → log.entry addr = WriteLog.EntryRes.Vacant hash →
      PReach (log.push addr v hash)
  | overwrite {log : WriteLog} {addr : Nat} {v : List Nat}
      {e : WriteEntryMem} {hash : Nat} :
      PReach log → log.entry addr = WriteLog.EntryRes.Occupied e hash →
      PReach (log.overwritePending addr v)
  | clearStep {log : WriteLog} : PReach log → PReach log.clear

/-! Helper lemmas. -/

theorem bloomHash_eq_pow (addr : Nat) :
    bloomHash addr = 2 ^ ((addr >>> calcShift) &&& 63) := by
  simp [bloomHash, Nat.shiftLeft_eq]

theorem bloomHash_ne_zero (addr : Nat) : bloomHash addr ≠ 0 := by
  rw [bloomHash_eq_pow]
  exact (Nat.pos_pow_of_pos _ (by decide) : 0 < 2 ^ _).ne'

theorem and_two_pow_ne_zero_iff (x s : Nat) :
    x &&& 2 ^ s ≠ 0 ↔ x.testBit s = true := by
  rw [Nat.and_two_pow]
  cases h : x.testBit s
  · simp
  · simpa using (Nat.pos_pow_of_pos s (by decide) : 0 < 2 ^ s).ne'

theorem or_ne_zero_right (x y : Nat) (h : y ≠ 0) : x ||| y ≠ 0 := by
  obtain ⟨i, hi⟩ := Nat.ne_zero_implies_bit_true h
  intro hc
  have hbit := congrArg (fun n => n.testBit i) hc
  simp [Nat.testBit_or, hi] at hbit

theorem applyOps_nil (log : WriteLog) : applyOps log [] = log := rfl

theorem applyOps_cons (log : WriteLog) (op : Op) (ops : List Op) :
    applyOps log (op :: ops) = applyOps (applyOp log op) ops := rfl

theorem applyOps_append (log : WriteLog) (l₁ l₂ : List Op) :
    applyOps log (l₁ ++ l₂) = applyOps (applyOps log l₁) l₂ :=
  List.foldl_append _ _ _ _

theorem contained_maybe_iff (log : WriteLog) (h : Nat) :
    log.contained h = Contained.Maybe ↔ log.filter &&& h ≠ 0 := by
  unfold WriteLog.contained
  by_cases hc : log.filter &&& h ≠ 0 <;> simp [hc]

theorem contained_no_iff (log : WriteLog) (h : Nat) :
    log.contained h = Contained.No ↔ log.filter &&& h = 0 := by
  unfold WriteLog.contained
  by_cases hc : log.filter &&& h ≠ 0 <;> simp [hc] <;> tauto

/-- A set bloom bit survives any sequence of non-clearing operations. -/
theorem filter_testBit_preserved (s : Nat) :
    ∀ (post : List Op) (log : WriteLog), (∀ op ∈ post, op.noClear = true) →
      log.filter.testBit s = true → (applyOps log post).filter.testBit s = true := by
  intro post
  induction post with
  | nil => intro log _ hbit; simpa [applyOps_nil] using hbit
  | cons op rest ih =>
    intro log hnc hbit
    rw [applyOps_cons]
    refine ih _ (fun o ho => hnc o (List.mem_cons_of_mem _ ho)) ?_
    have hop := hnc op (List.mem_cons_self _ _)
    cases op with
    | push a v h => simp [applyOp, WriteLog.push, Nat.testBit_or, hbit]
    | pushUnchecked a v h => simp [applyOp, WriteLog.push, Nat.testBit_or, hbit]
    | entryProbe a => simpa [applyOp] using hbit
    | clear => simp [Op.noClear] at hop
    | clearNoDrop => simp [Op.noClear] at hop

/-- Claim C1: filter soundness / no false negatives.  If a record for a cell
was inserted by `push` (or `push_unchecked`) with hash `bloom_hash(C)`, then
in every later state of the log before the next clear, `contained` of that
hash answers `Maybe`, never `No`. -/
theorem writeLog_filter_soundness (log : WriteLog) (pre post : List Op)
    (addr : Nat) (v : List Nat) (hnc : ∀ op ∈ post, op.noClear = true) :
    (applyOps log (pre ++ Op.push addr v (bloomHash addr) :: post)).contained
        (bloomHash addr) = Contained.Maybe ∧
    (applyOps log (pre ++ Op.pushUnchecked addr v (bloomHash addr) :: post)).contained
        (bloomHash addr) = Contained.Maybe := by
  set s := (addr >>> calcShift) &&& 63 with hs
  have key : ∀ mid : WriteLog, mid.filter = (applyOps log pre).filter ||| bloomHash addr →
      ∀ tail : WriteLog, tail = applyOps mid post →
      tail.contained (bloomHash addr) = Contained.Maybe := by
    intro mid hmid tail htail
    rw [contained_maybe_iff, bloomHash_eq_pow, and_two_pow_ne_zero_iff]
    subst htail
    refine filter_testBit_preserved s post mid hnc ?_
    rw [hmid, bloomHash_eq_pow]
    simp [Nat.testBit_or, Nat.testBit_two_pow_self]
  constructor
  · rw [applyOps_append, applyOps_cons]
    exact key _ rfl _ rfl
  · rw [applyOps_append, applyOps_cons]
    exact key _ rfl _ rfl

/-- Claim C1 witness. -/
theorem writeLog_filter_soundness_witness :
    (applyOps WriteLog.new
        ([Op.entryProbe 24] ++ Op.push 16 [] (bloomHash 16) :: [Op.entryProbe 3])).contained
      (bloomHash 16) = Contained.Maybe :=
  (writeLog_filter_soundness WriteLog.new [Op.entryProbe 24] [Op.entryProbe 3] 16 []
    (by decide)).1

/-- Filter/container agreement is preserved by every well-formed operation
sequence. -/
theorem inv_applyOps :
    ∀ (ops : List Op) (log : WriteLog), (∀ op ∈ ops, op.wfb = true) →
      (log.filter = 0 ↔ log.data = []) →
      ((applyOps log ops).filter = 0 ↔ (applyOps log ops).data = []) := by
  intro ops
  induction ops with
  | nil => intro log _ hinv; simpa [applyOps_nil] using hinv
  | cons op rest ih =>
    intro log hwf hinv
    rw [applyOps_cons]
    refine ih _ (fun o ho => hwf o (List.mem_cons_of_mem _ ho)) ?_
    have hop := hwf op (List.mem_cons_self _ _)
    cases op with
    | push a v h =>
      have hh : h ≠ 0 := by simpa [Op.wfb] using hop
      constructor
      · intro hf; exact absurd hf (or_ne_zero_right _ _ hh)
      · intro hd; simp [applyOp, WriteLog.push] at hd
    | pushUnchecked a v h =>
      have hh : h ≠ 0 := by simpa [Op.wfb] using hop
      constructor
      · intro hf; exact absurd hf (or_ne_zero_right _ _ hh)
      · intro hd; simp [applyOp, WriteLog.push] at hd
    | entryProbe a => exact hinv
    | clear => simp [applyOp, WriteLog.clear]
    | clearNoDrop => simp [applyOp, WriteLog.clearNoDrop]

/-- Claim C5: in every state reachable from `new()` by `push`,
`push_unchecked`, `entry`, `clear` and `clear_no_drop`, the filter word is
zero iff the record container is empty, and `is_empty()` answers exactly the
emptiness of the container. -/
theorem writeLog_filter_container_agree (ops : List Op)
    (hwf : ∀ op ∈ ops, op.wfb = true) :
    ((applyOps WriteLog.new ops).filter = 0 ↔ (applyOps WriteLog.new ops).data = []) ∧
    ((applyOps WriteLog.new ops).isEmpty = true ↔ (applyOps WriteLog.new ops).data = []) := by
  have hinv := inv_applyOps ops WriteLog.new hwf (by simp [WriteLog.new])
  refine ⟨hinv, ?_⟩
  unfold WriteLog.isEmpty
  simpa using hinv

/-- Claim C5 witness. -/
theorem writeLog_filter_container_agree_witness :
    ((applyOps WriteLog.new [Op.push 16 [5] 2, Op.clear]).filter = 0 ↔
      (applyOps WriteLog.new [Op.push 16 [5] 2, Op.clear]).data = []) ∧
    ((applyOps WriteLog.new [Op.push 16 [5] 2, Op.clear]).isEmpty = true ↔
      (applyOps WriteLog.new [Op.push 16 [5] 2, Op.clear]).data = []) :=
  writeLog_filter_container_agree [Op.push 16 [5] 2, Op.clear] (by decide)

/-- Claim C8: `clear()` on an empty log (in a state where filter and
container agree) is a no-op, and `clear` is idempotent: clearing twice equals
clearing once; after any `clear` the log is observably empty. -/
theorem writeLog_clear_idempotent (log : WriteLog) :
    ((log.filter = 0 ↔ log.data = []) → log.isEmpty = true → log.clear = log) ∧
    log.clear.clear = log.clear ∧
    log.clear.isEmpty = true ∧ log.clear.filter = 0 ∧ log.clear.data = [] := by
  refine ⟨?_, rfl, rfl, rfl, rfl⟩
  intro hagree hempty
  have hf : log.filter = 0 := by simpa [WriteLog.isEmpty] using hempty
  have hd : log.data = [] := hagree.mp hf
  show ({ log with filter := 0, data := [] } : WriteLog) = log
  rw [← hf, ← hd]

/-- Claim C8 witness. -/
theorem writeLog_clear_idempotent_witness :
    WriteLog.new.clear = WriteLog.new :=
  (writeLog_clear_idempotent WriteLog.new).1 (by decide) rfl

/-- Claim C10: `try_lock_entries` debug-asserts a non-empty write log — the
modelled assertion fires exactly on a log that `is_empty()`, which under the
filter/container agreement invariant is exactly an empty container. -/
theorem writeLog_try_lock_requires_nonempty (ok : Nat → Bool) (log : WriteLog) :
    (log.tryLockEntriesChecked ok = none ↔ log.isEmpty = true) ∧
    ((log.filter = 0 ↔ log.data = []) →
      (log.tryLockEntriesChecked ok = none ↔ log.data = [])) := by
  constructor
  · unfold WriteLog.tryLockEntriesChecked
    by_cases h : log.isEmpty <;> simp [h]
  · intro hagree
    unfold WriteLog.tryLockEntriesChecked WriteLog.isEmpty
    by_cases h : log.filter = 0 <;> simp [h, hagree.symm]

/-- Claim C10 witness. -/
theorem writeLog_try_lock_requires_nonempty_witness :
    WriteLog.new.tryLockEntriesChecked (fun _ => true) = none ∧
    (WriteLog.new.tryLockEntriesChecked (fun _ => true) = none ↔
      WriteLog.new.data = []) :=
  ⟨(writeLog_try_lock_requires_nonempty (fun _ => true) WriteLog.new).1.mpr rfl,
   (writeLog_try_lock_requires_nonempty (fun _ => true) WriteLog.new).2 (by decide)⟩

/-! Locking-loop lemmas. -/

theorem range'_succ_cons (s n : Nat) :
    List.range' s (n + 1) = s :: List.range' (s + 1) n := rfl

theorem takeWhile_range'_ne (k : Nat) :
    ∀ (n s : Nat), s ≤ k → k < s + n →
      (List.range' s n).takeWhile (fun i => i ≠ k) = List.range' s (k - s) := by
  intro n
  induction n with
  | zero => intro s hs hk; omega
  | succ n ih =>
    intro s hs hk
    rw [range'_succ_cons, List.takeWhile_cons]
    by_cases hsk : s = k
    · subst hsk
      simp
    · have hrec := ih (s + 1) (by omega) (by omega)
      have hks : k - s = (k - (s + 1)) + 1 := by omega
      rw [if_pos (by simp [hsk]), hrec, hks, range'_succ_cons]

theorem unlockEntriesUntil_eq (log : WriteLog) (k : Nat)
    (hk : k < log.data.length) :
    log.unlockEntriesUntil k = (List.range k).map LockEvent.unlock := by
  unfold WriteLog.unlockEntriesUntil
  rw [List.range_eq_range', takeWhile_range'_ne k _ 0 (Nat.zero_le _) (by omega),
    Nat.sub_zero, ← List.range_eq_range']

theorem tryLockGo_success (ok : Nat → Bool) (log : WriteLog) :
    ∀ (es : List WriteEntryMem) (i : Nat),
      (∀ j, j < es.length → entryTryLockB ok (es.getD j default) (i + j) = true) →
      WriteLog.tryLockGo ok log es i =
        (true, (List.range' i es.length).map LockEvent.tryLock) := by
  intro es
  induction es with
  | nil => intro i _; rfl
  | cons e rest ih =>
    intro i hall
    have h0 : entryTryLockB ok e i = true := by
      simpa using hall 0 (Nat.succ_pos _)
    have hrec := ih (i + 1) (fun j hj => by
      have hj' := hall (j + 1) (by simp only [List.length_cons]; omega)
      rw [show i + 1 + j = i + (j + 1) by omega]
      simpa [List.getD_cons_succ] using hj')
    rw [WriteLog.tryLockGo, if_pos h0, hrec, List.length_cons, range'_succ_cons]
    rfl

theorem tryLockGo_fail (ok : Nat → Bool) (log : WriteLog) :
    ∀ (es : List WriteEntryMem) (i k : Nat), k < es.length →
      (∀ j, j < k → entryTryLockB ok (es.getD j default) (i + j) = true) →
      entryTryLockB ok (es.getD k default) (i + k) = false →
      WriteLog.tryLockGo ok log es i =
        (false, (List.range' i (k + 1)).map LockEvent.tryLock ++
          log.unlockEntriesUntil (i + k)) := by
  intro es
  induction es with
  | nil => intro i k hk; exact absurd hk (by simp)
  | cons e rest ih =>
    intro i k hk hlt hfail
    cases k with
    | zero =>
      have h0 : entryTryLockB ok e i = false := by simpa using hfail
      rw [WriteLog.tryLockGo, if_neg (by simp [h0])]
      simp [range'_succ_cons]
    | succ k' =>
      have h0 : entryTryLockB ok e i = true := by
        simpa using hlt 0 (Nat.succ_pos _)
      have hrec := ih (i + 1) k' (by simpa using hk)
        (fun j hj => by
          have hj' := hlt (j + 1) (by omega)
          rw [show i + 1 + j = i + (j + 1) by omega]
          simpa [List.getD_cons_succ] using hj')
        (by
          rw [show i + 1 + k' = i + (k' + 1) by omega]
          simpa [List.getD_cons_succ] using hfail)
      rw [WriteLog.tryLockGo, if_pos h0, hrec, range'_succ_cons,
        show i + 1 + k' = i + (k' + 1) by omega]
      rfl

theorem tryLockEntries_fail_eq (ok : Nat → Bool) (log : WriteLog) (k : Nat)
    (hk : k < log.data.length)
    (hbefore : ∀ i, i < k → log.entryTryLockAt ok i = true)
    (hfail : log.entryTryLockAt ok k = false) :
    log.tryLockEntries ok =
      (false, (List.range (k + 1)).map LockEvent.tryLock ++
        (List.range k).map LockEvent.unlock) := by
  unfold WriteLog.tryLockEntries
  rw [tryLockGo_fail ok log log.data 0 k hk
    (fun j hj => by simpa [WriteLog.entryTryLockAt] using hbefore j hj)
    (by simpa [WriteLog.entryTryLockAt] using hfail)]
  rw [Nat.zero_add, unlockEntriesUntil_eq log k hk]
  simp [List.range_eq_range']

theorem tryLockEntries_success_eq (ok : Nat → Bool) (log : WriteLog)
    (hall : ∀ i, i < log.data.length → log.entryTryLockAt ok i = true) :
    log.tryLockEntries ok =
      (true, (List.range log.data.length).map LockEvent.tryLock) := by
  unfold WriteLog.tryLockEntries
  rw [tryLockGo_success ok log log.data 0
    (fun j hj => by simpa [WriteLog.entryTryLockAt] using hall j hj)]
  simp [List.range_eq_range']

/-- Claim C2: lock rollback symmetry.  If the `try_lock` of the record at
position `k` is the first to fail, `try_lock_entries` attempts `try_lock` on
exactly the records `0..k` in insertion order, calls `unlock` on exactly the
already-locked records `0..k-1` (not the failing one, none after it) and
returns `false`; and it returns `true` — having attempted every record in
insertion order with no unlocks — if and only if every `try_lock` succeeds. -/
theorem writeLog_try_lock_rollback (ok : Nat → Bool) (log : WriteLog) (k : Nat) :
    (k < log.data.length →
      (∀ i, i < k → log.entryTryLockAt ok i = true) →
      log.entryTryLockAt ok k = false →
      log.tryLockEntries ok =
        (false, (List.range (k + 1)).map LockEvent.tryLock ++
          (List.range k).map LockEvent.unlock)) ∧
    ((∀ i, i < log.data.length → log.entryTryLockAt ok i = true) →
      log.tryLockEntries ok =
        (true, (List.range log.data.length).map LockEvent.tryLock)) ∧
    ((log.tryLockEntries ok).1 = true ↔
      ∀ i, i < log.data.length → log.entryTryLockAt ok i = true) := by
  refine ⟨tryLockEntries_fail_eq ok log k, tryLockEntries_success_eq ok log, ?_, ?_⟩
  · intro htrue
    by_contra hnall
    push_neg at hnall
    obtain ⟨i, hi, hfaili⟩ := hnall
    have hex : ∃ j, j < log.data.length ∧ log.entryTryLockAt ok j = false :=
      ⟨i, hi, by
        cases hb : log.entryTryLockAt ok i
        · rfl
        · exact absurd hb hfaili⟩
    have hkspec := Nat.find_spec hex
    have hbef : ∀ j, j < Nat.find hex → log.entryTryLockAt ok j = true := by
      intro j hj
      have hjn : j < log.data.length := lt_trans hj hkspec.1
      cases hb : log.entryTryLockAt ok j
      · exact absurd ⟨hjn, hb⟩ (Nat.find_min hex hj)
      · rfl
    have hres := tryLockEntries_fail_eq ok log (Nat.find hex) hkspec.1 hbef hkspec.2
    rw [hres] at htrue
    exact absurd htrue (by simp)
  · intro hall
    rw [tryLockEntries_success_eq ok log hall]

/-- Claim C2 witness: three active records, the middle `try_lock` fails —
records 0 and 1 are attempted, only record 0 is unlocked; and with an
all-success oracle all three are attempted and none unlocked. -/
theorem writeLog_try_lock_rollback_witness :
    WriteLog.tryLockEntries (fun i => i ≠ 1)
        ⟨7, [⟨8, [1]⟩, ⟨16, [2]⟩, ⟨24, [3]⟩]⟩ =
      (false, [LockEvent.tryLock 0, LockEvent.tryLock 1, LockEvent.unlock 0]) ∧
    WriteLog.tryLockEntries (fun _ => true)
        ⟨7, [⟨8, [1]⟩, ⟨16, [2]⟩, ⟨24, [3]⟩]⟩ =
      (true, [LockEvent.tryLock 0, LockEvent.tryLock 1, LockEvent.tryLock 2]) := by
  constructor
  · have h := (writeLog_try_lock_rollback (fun i => i ≠ 1)
      ⟨7, [⟨8, [1]⟩, ⟨16, [2]⟩, ⟨24, [3]⟩]⟩ 1).1 (by decide)
      (by decide) (by decide)
    simpa using h
  · have h := (writeLog_try_lock_rollback (fun _ => true)
      ⟨7, [⟨8, [1]⟩, ⟨16, [2]⟩, ⟨24, [3]⟩]⟩ 1).2.1 (by decide)
    simpa using h

/-- Claim C4: deactivated records are inert.  For a record whose target is
`None`, `unlock`, `perform_write` and `publish` leave every cell and lock
state unchanged, and `try_lock` returns `true` without touching any lock
word — for arbitrary behaviour of the underlying cell-lock operations. -/
theorem writeEntry_deactivated_inert {σ : Type} (e : WriteEntryMem)
    (hde : e.tcell = none) (tryOp : Nat → σ → Bool × σ)
    (unlockOp : Nat → σ → σ) (pubOp : Nat → Nat → σ → σ) (epoch : Nat)
    (s : σ) (mem : Nat → List Nat) :
    e.tryLockSt tryOp s = (true, s) ∧
    e.unlockSt unlockOp s = s ∧
    e.performWrite mem = mem ∧
    e.publishSt pubOp epoch s = s := by
  unfold WriteEntryMem.tryLockSt WriteEntryMem.unlockSt
    WriteEntryMem.performWrite WriteEntryMem.publishSt
  rw [hde]
  exact ⟨rfl, rfl, rfl, rfl⟩

/-- Claim C4 witness: a deactivated record (first word 0) under cell
operations that would visibly mutate the state if invoked. -/
theorem writeEntry_deactivated_inert_witness :
    WriteEntryMem.tryLockSt (fun a s => (false, s + a)) ⟨0, [5]⟩ 0 = (true, 0) ∧
    WriteEntryMem.unlockSt (fun a s => s + a) ⟨0, [5]⟩ 0 = 0 ∧
    WriteEntryMem.performWrite ⟨0, [5]⟩ (fun _ => []) = (fun _ => []) ∧
    WriteEntryMem.publishSt (fun a ep s => s + a + ep) ⟨0, [5]⟩ 3 0 = 0 :=
  writeEntry_deactivated_inert ⟨0, [5]⟩ rfl (fun a s => (false, s + a))
    (fun a s => s + a) (fun a ep s => s + a + ep) 3 0 (fun _ => [])

/-- Claim C9: `perform_write` copies exactly the pending value's word count.
The derived length `size_of_val / word_size - 1` equals the pending payload's
word count, the copied slice is exactly the pending words, the target cell
ends up holding exactly those words, and no other cell is written. -/
theorem writeEntry_perform_write_word_count (e : WriteEntryMem) (p : Nat)
    (mem : Nat → List Nat) (hp : e.tcell = some p) :
    e.performWriteLen = e.pending.length ∧
    e.writtenWords = e.pending ∧
    e.performWrite mem p = e.pending ∧
    (∀ q, q ≠ p → e.performWrite mem q = mem q) := by
  have hlen : e.performWriteLen = e.pending.length := by
    unfold WriteEntryMem.performWriteLen WriteEntryMem.sizeOfVal
    omega
  have hwords : e.writtenWords = e.pending := by
    unfold WriteEntryMem.writtenWords
    rw [hlen, List.take_length]
  refine ⟨hlen, hwords, ?_, ?_⟩
  · unfold WriteEntryMem.performWrite
    rw [hp]
    simp [hwords]
  · intro q hq
    unfold WriteEntryMem.performWrite
    rw [hp]
    simp [hq]

/-- Claim C9 witness: a two-word value is written in full to its cell. -/
theorem writeEntry_perform_write_word_count_witness :
    WriteEntryMem.performWrite ⟨16, [7, 9]⟩ (fun _ => []) 16 = [7, 9] :=
  (writeEntry_perform_write_word_count ⟨16, [7, 9]⟩ 16 (fun _ => []) rfl).2.2.1

/-! Lookup lemmas. -/

theorem isDestTcell_iff (e : WriteEntryMem) (addr : Nat) :
    e.isDestTcell addr = true ↔ e.tcell = some addr := by
  unfold WriteEntryMem.isDestTcell
  cases h : e.tcell with
  | none => simp
  | some p => simp

/-- Claim C3: lookup correctness of `find` and `entry`.  Under filter
soundness, `find(C)` is `Some` exactly when the log holds an active record
for `C`, every record it returns targets `C`, and `entry(C)` is `Occupied`
with exactly the record `find(C)` returns (carrying `bloom_hash(C)`),
`Vacant` in exactly the states where `find(C)` is `None`. -/
theorem writeLog_find_entry_correct (log : WriteLog) (addr : Nat)
    (hs : Sound log) :
    ((log.find addr).isSome ↔ ∃ e ∈ log.data, e.isDestTcell addr = true) ∧
    (∀ e, log.find addr = some e → e.isDestTcell addr = true) ∧
    (∀ e h, log.entry addr = WriteLog.EntryRes.Occupied e h →
      log.find addr = some e ∧ h = bloomHash addr) ∧
    (log.entry addr).isOccupied = (log.find addr).isSome := by
  by_cases hc : log.contained (bloomHash addr) = Contained.No
  · have hfind : log.find addr = none := by
      unfold WriteLog.find
      rw [if_pos hc]
    have hentry : log.entry addr = WriteLog.EntryRes.Vacant (bloomHash addr) := by
      unfold WriteLog.entry
      rw [if_pos hc]
    have hnone : ∀ e ∈ log.data, ¬ e.isDestTcell addr = true := by
      intro e he hdt
      have htc := (isDestTcell_iff e addr).mp hdt
      have := hs e he addr htc
      exact this ((contained_no_iff log (bloomHash addr)).mp hc)
    refine ⟨?_, ?_, ?_, ?_⟩
    · rw [hfind]
      simpa using fun e he hdt => hnone e he hdt
    · intro e he
      rw [hfind] at he
      exact absurd he (by simp)
    · intro e h hocc
      rw [hentry] at hocc
      exact absurd hocc (by simp)
    · rw [hfind, hentry]
      rfl
  · have hfind : log.find addr = log.data.find? (fun e => e.isDestTcell addr) := by
      unfold WriteLog.find
      rw [if_neg hc]
      rfl
    have hentry : log.entry addr = log.entrySlow addr (bloomHash addr) := by
      unfold WriteLog.entry
      rw [if_neg hc]
    refine ⟨?_, ?_, ?_, ?_⟩
    · rw [hfind]
      exact List.find?_isSome
    · intro e he
      rw [hfind] at he
      simpa using List.find?_some he
    · intro e h hocc
      rw [hentry] at hocc
      unfold WriteLog.entrySlow at hocc
      rw [hfind]
      cases hf : log.data.find? (fun e => e.isDestTcell addr) with
      | none => rw [hf] at hocc; exact absurd hocc (by simp)
      | some e' =>
        rw [hf] at hocc
        cases hocc
        exact ⟨rfl, rfl⟩
    · rw [hentry, hfind]
      unfold WriteLog.entrySlow
      cases hf : log.data.find? (fun e => e.isDestTcell addr) <;> rfl

/-- Claim C3 witness: a sound one-record log, probed at its recorded cell. -/
theorem writeLog_find_entry_correct_witness :
    (WriteLog.find ⟨bloomHash 16, [⟨16, [7]⟩]⟩ 16).isSome ↔
      ∃ e ∈ (⟨bloomHash 16, [⟨16, [7]⟩]⟩ : WriteLog).data,
        e.isDestTcell 16 = true :=
  (writeLog_find_entry_correct ⟨bloomHash 16, [⟨16, [7]⟩]⟩ 16 (by
    intro e he p hp
    simp only [List.mem_singleton] at he
    subst he
    rw [show WriteEntryMem.tcell ⟨16, [7]⟩ = some 16 from rfl] at hp
    cases hp
    decide)).1

/-! Entry-protocol invariant lemmas. -/

theorem or_ne_zero_left (x y : Nat) (h : x ≠ 0) : x ||| y ≠ 0 := by
  rw [Nat.or_comm]
  exact or_ne_zero_right _ _ h

theorem and_or_left_ne_zero (x y h : Nat) (hx : x &&& h ≠ 0) :
    (x ||| y) &&& h ≠ 0 := by
  rw [Nat.and_comm, Nat.and_or_distrib_left]
  exact or_ne_zero_left _ _ (by rwa [Nat.and_comm] at hx)

theorem and_or_right_ne_zero (x y h : Nat) (hy : y &&& h ≠ 0) :
    (x ||| y) &&& h ≠ 0 := by
  rw [Nat.or_comm]
  exact and_or_left_ne_zero _ _ _ hy

/-- A `Vacant` answer from `entry` carries the cell's bloom hash and, in a
sound log, certifies that no active record targets the cell. -/
theorem entry_vacant_no_record (log : WriteLog) (addr : Nat) (hash : Nat)
    (hs : Sound log) (hvac : log.entry addr = WriteLog.EntryRes.Vacant hash) :
    hash = bloomHash addr ∧ ∀ e ∈ log.data, e.isDestTcell addr = false := by
  by_cases hc : log.contained (bloomHash addr) = Contained.No
  · have hentry : log.entry addr = WriteLog.EntryRes.Vacant (bloomHash addr) := by
      unfold WriteLog.entry
      rw [if_pos hc]
    rw [hentry] at hvac
    cases hvac
    refine ⟨rfl, fun e he => ?_⟩
    by_contra hdt
    have htc := (isDestTcell_iff e addr).mp (by
      cases hb : e.isDestTcell addr
      · exact absurd hb hdt
      · rfl)
    exact hs e he addr htc ((contained_no_iff log (bloomHash addr)).mp hc)
  · have hentry : log.entry addr = log.entrySlow addr (bloomHash addr) := by
      unfold WriteLog.entry
      rw [if_neg hc]
    rw [hentry] at hvac
    unfold WriteLog.entrySlow at hvac
    cases hf : log.data.find? (fun e => e.isDestTcell addr) with
    | some e' => rw [hf] at hvac; exact absurd hvac (by simp)
    | none =>
      rw [hf] at hvac
      cases hvac
      refine ⟨rfl, fun e he => ?_⟩
      have := List.find?_eq_none.mp hf e he
      cases hb : e.isDestTcell addr
      · rfl
      · exact absurd (by simpa using hb) this

/-- Record-count bookkeeping survives the in-place pending overwrite: the
rewrite keeps every record's target. -/
theorem countP_overwrite (l : List WriteEntryMem) (addr addr' : Nat)
    (v : List Nat) :
    (l.map (fun e => if e.isDestTcell addr then { e with pending := v }
        else e)).countP (fun e => e.isDestTcell addr') =
      l.countP (fun e => e.isDestTcell addr') := by
  induction l with
  | nil => rfl
  | cons e rest ih =>
    have hhead : WriteEntryMem.isDestTcell
        (if e.isDestTcell addr then { e with pending := v } else e) addr' =
          e.isDestTcell addr' := by
      by_cases hdt : e.isDestTcell addr = true
      · rw [if_pos hdt]
        rfl
      · rw [if_neg hdt]
    simp only [List.map_cons, List.countP_cons, ih, hhead]

/-- Sound state plus at-most-one-record-per-cell is an invariant of the entry
protocol. -/
theorem preach_invariant (log : WriteLog) (h : PReach log) :
    Sound log ∧
      ∀ addr, log.data.countP (fun e => e.isDestTcell addr) ≤ 1 := by
  induction h with
  | base =>
    constructor
    · intro e he
      simp [WriteLog.new] at he
    · intro addr
      simp [WriteLog.new]
  | @pushVacant log addr v hash hre hne hvac ih =>
    obtain ⟨hsound, hamo⟩ := ih
    obtain ⟨hhash, hnorec⟩ := entry_vacant_no_record log addr hash hsound hvac
    subst hhash
    constructor
    · intro e he p hp
      show (log.filter ||| bloomHash addr) &&& bloomHash p ≠ 0
      rcases List.mem_append.mp he with hmem | hmem
      · exact and_or_left_ne_zero _ _ _ (hsound e hmem p hp)
      · have he' : e = ⟨addr, v⟩ := by simpa using hmem
        subst he'
        have hpa : p = addr := by
          rw [show WriteEntryMem.tcell ⟨addr, v⟩ =
            (if addr = 0 then none else some addr) from rfl, if_neg hne] at hp
          cases hp
          rfl
        subst hpa
        refine and_or_right_ne_zero _ _ _ ?_
        rw [Nat.and_self]
        exact bloomHash_ne_zero p
    · intro addr'
      show ((log.data ++ ([⟨addr, v⟩] : List WriteEntryMem)).countP
        fun e => e.isDestTcell addr') ≤ 1
      rw [List.countP_append]
      by_cases haa : addr' = addr
      · subst haa
        have hzero : log.data.countP (fun e => e.isDestTcell addr') = 0 :=
          List.countP_eq_zero.mpr (fun e he => by simp [hnorec e he])
        have hone : List.countP (fun e => e.isDestTcell addr')
            ([⟨addr', v⟩] : List WriteEntryMem) ≤ 1 := by
          refine le_trans (List.countP_le_length _) ?_
          simp
        omega
      · have hzero : List.countP (fun e => e.isDestTcell addr')
            ([⟨addr, v⟩] : List WriteEntryMem) = 0 := by
          rw [List.countP_cons]
          have : WriteEntryMem.isDestTcell ⟨addr, v⟩ addr' = false := by
            cases hb : WriteEntryMem.isDestTcell ⟨addr, v⟩ addr'
            · rfl
            · have := (isDestTcell_iff ⟨addr, v⟩ addr').mp hb
              rw [show WriteEntryMem.tcell ⟨addr, v⟩ =
                (if addr = 0 then none else some addr) from rfl, if_neg hne] at this
              cases this
              exact absurd rfl haa
          simp [this, List.countP_nil]
        have := hamo addr'
        omega
  | @overwrite log addr v e hash hre hocc ih =>
    obtain ⟨hsound, hamo⟩ := ih
    constructor
    · intro e' he' p hp
      show log.filter &&& bloomHash p ≠ 0
      obtain ⟨e₀, he₀, hfe⟩ := List.mem_map.mp he'
      have htc : e'.tcell = e₀.tcell := by
        subst hfe
        by_cases hdt : e₀.isDestTcell addr = true
        · rw [if_pos hdt]
          rfl
        · rw [if_neg hdt]
      exact hsound e₀ he₀ p (htc ▸ hp)
    · intro addr'
      have hdata : (log.overwritePending addr v).data =
          log.data.map (fun e => if e.isDestTcell addr then
            { e with pending := v } else e) := rfl
      rw [hdata, countP_overwrite]
      exact hamo addr'
  | @clearStep log hre ih =>
    constructor
    · intro e he
      simp [WriteLog.clear] at he
    · intro addr
      simp [WriteLog.clear, List.countP_nil]

/-- Claim C6: at most one active record per cell.  In every log state
reached by the entry protocol (push only after `entry` returned `Vacant`),
each cell has at most one record targeting it; and pushing a second record
for an already-recorded cell trips the `debug_assert!` in `push`. -/
theorem writeLog_at_most_one_active (log : WriteLog) (h : PReach log) :
    (∀ addr, log.data.countP (fun e => e.isDestTcell addr) ≤ 1) ∧
    (∀ addr (v : List Nat) (hash : Nat) (e : WriteEntryMem), e ∈ log.data →
      e.isDestTcell addr = true → log.pushChecked addr v hash = none) := by
  refine ⟨(preach_invariant log h).2, ?_⟩
  intro addr v hash e he hdt
  unfold WriteLog.pushChecked
  have hfound : log.data.find? (fun e => e.isDestTcell addr) ≠ none := by
    rw [Ne, List.find?_eq_none]
    intro hall
    exact hall e he (by simp [hdt])
  rw [if_pos hfound]

/-- Claim C6 witness: after one protocol-respecting push, cell 16 has one
record and a second checked push for it trips the assertion. -/
theorem writeLog_at_most_one_active_witness :
    (WriteLog.new.push 16 [5] (bloomHash 16)).data.countP
        (fun e => e.isDestTcell 16) ≤ 1 ∧
    (WriteLog.new.push 16 [5] (bloomHash 16)).pushChecked 16 [7]
        (bloomHash 16) = none :=
  have hre : PReach (WriteLog.new.push 16 [5] (bloomHash 16)) :=
    PReach.pushVacant PReach.base (by decide) (by decide)
  ⟨(writeLog_at_most_one_active _ hre).1 16,
   (writeLog_at_most_one_active _ hre).2 16 [7] (bloomHash 16) ⟨16, [5]⟩
     (by decide) (by decide)⟩

/-- Claim C7 counterexample: the write log does *not* reject a zero-sized
pending value before constructing its record.  Pushing a zero-sized value
passes `push`'s only (duplicate) assertion, and the zero-sized record enters
the log; the size assertion lives in `read`, which fails on that record. -/
theorem writeLog_zst_push_counterexample :
    WriteLog.new.pushChecked 16 [] (bloomHash 16) =
        some { filter := bloomHash 16, data := [⟨16, []⟩] } ∧
    (WriteLog.new.push 16 [] (bloomHash 16)).data = [⟨16, []⟩] ∧
    WriteEntryMem.read ⟨16, []⟩ 0 = none := by
  decide

/-- Claim C7 as amended: `push` performs no size check and admits the record
of a zero-sized value; the `assert!(size_of::<T>() > 0)` sits in
`read::<T>()`, which fails (assertion) for zero-sized `T`, while for
`size_of::<T>() > 0` on a record of matching size `read` returns the pending
bytes without triggering the assertion. -/
theorem writeLog_zst_rejected_at_read (e : WriteEntryMem) (tSize : Nat) :
    (tSize = 0 → e.read tSize = none) ∧
    (0 < tSize → e.pending.length = usizeAlignedWords tSize →
      e.read tSize = some e.pending) ∧
    (∀ (log : WriteLog) (addr : Nat) (v : List Nat) (hash : Nat),
      log.data.find? (fun x => x.isDestTcell addr) = none →
      log.pushChecked addr v hash = some (log.push addr v hash)) := by
  refine ⟨?_, ?_, ?_⟩
  · intro h0
    subst h0
    unfold WriteEntryMem.read
    by_cases hsz : e.sizeOfVal ≠ 8 * usizeAlignedWords 0 + 8
    · rw [if_pos hsz]
    · rw [if_neg hsz, if_pos rfl]
  · intro hpos hlen
    have hsz : ¬ e.sizeOfVal ≠ 8 * usizeAlignedWords tSize + 8 := by
      unfold WriteEntryMem.sizeOfVal
      omega
    have ht0 : ¬ tSize = 0 := by omega
    unfold WriteEntryMem.read
    rw [if_neg hsz, if_neg ht0, ← hlen, List.take_length]
  · intro log addr v hash hnone
    unfold WriteLog.pushChecked
    simp [hnone]

/-- Claim C7 amended-theorem witness: a one-word value reads back intact; a
zero-sized read is refused. -/
theorem writeLog_zst_rejected_at_read_witness :
    WriteEntryMem.read ⟨16, [7]⟩ 8 = some [7] ∧
    WriteEntryMem.read ⟨16, []⟩ 0 = none :=
  ⟨(writeLog_zst_rejected_at_read ⟨16, [7]⟩ 8).2.1 (by decide) (by decide),
   (writeLog_zst_rejected_at_read ⟨16, []⟩ 0).1 rfl⟩

end WriteLogModel
